import Mathlib

/-!
Shallow embedding of the spectral-estimator core of the crosscorr
repository (src/lib.rs), over exact real arithmetic: the Rust f64
values are modelled as real numbers, usize indices as naturals, and
the FFTW complex type c64 as the Lean complex numbers.  The triple
accumulation loop of `correlate` is modelled as a left fold over the
explicit list of grid triples, with the two mutated vectors
represented as functions from indices.  IEEE special values
(infinities, NaN) are modelled separately by the type `F` below for
the one claim that concerns division by a zero shell count.
-/

namespace Crosscorr

/-- Configuration record from src/lib.rs (struct Config).  The three
filename fields are I/O concerns outside the embedded core; ngrid and
boxsize are the fields the estimator reads.  boxsize is stored as f32
in the source and promoted to f64 before use; it is modelled directly
as a real number. -/
structure Config where
  ngrid : ℕ
  boxsize : ℝ

/-- Output struct from src/lib.rs, holding the four result vectors. -/
structure Output where
  w : List ℝ
  pow_spec : List ℝ
  deltasqk : List ℝ
  iweights : List ℤ

/-- Embeds `let nhalf: usize = ngrid / 2` (integer division). -/
def nhalf (ngrid : ℕ) : ℕ := ngrid / 2

/-- Embeds `let kf: f64 = 2.0 * PI / boxsize`. -/
noncomputable def kf (boxsize : ℝ) : ℝ := 2 * Real.pi / boxsize

/-- Embeds `let coeff: f64 = (boxsize / (2.0 * PI)).powf(2.0)`. -/
noncomputable def coeff (boxsize : ℝ) : ℝ := (boxsize / (2 * Real.pi)) ^ 2

/-- Embeds `let kny: f64 = PI * config.ngrid as f64 / boxsize`
(present in the mass-assignment-correction builds). -/
noncomputable def kny (ngrid : ℕ) (boxsize : ℝ) : ℝ := Real.pi * ngrid / boxsize

/-- The wavenumber stored at slot i of the vector w built by the two
push loops of `correlate`: slots 0..=nhalf receive kf*i, and slots
nhalf+1..ngrid receive kf*(i - ngrid) with the subtraction performed
on signed integers.  The list `wTable` below is the literal vector;
`wTable_getD` proves the two agree at every in-range index. -/
noncomputable def wval (ngrid : ℕ) (boxsize : ℝ) (i : ℕ) : ℝ :=
  if i ≤ nhalf ngrid then kf boxsize * i else kf boxsize * ((i : ℤ) - (ngrid : ℤ))

/-- Embeds the vector w of `correlate`: a push of kf*i for each i in
0..=nhalf followed by a push of kf*(i - ngrid) for each i in
(nhalf+1)..ngrid. -/
noncomputable def wTable (ngrid : ℕ) (boxsize : ℝ) : List ℝ :=
  (List.range (nhalf ngrid + 1)).map (fun i : ℕ => kf boxsize * (i : ℝ))
    ++ (List.range' (nhalf ngrid + 1) (ngrid - (nhalf ngrid + 1))).map
        (fun i : ℕ => kf boxsize * (((i : ℤ) - (ngrid : ℤ) : ℤ) : ℝ))

/-- Embeds the per-axis index folding of `correlate`:
`let iper = if i >= nhalf { ngrid - i } else { i }`. -/
def fold (ngrid i : ℕ) : ℕ := if nhalf ngrid ≤ i then ngrid - i else i

/-- Embeds `let r: f64 = (iper*iper + jper*jper + kper*kper) as f64`
followed by `r.sqrt()`. -/
noncomputable def rDist (ngrid i j k : ℕ) : ℝ :=
  Real.sqrt ((fold ngrid i * fold ngrid i + fold ngrid j * fold ngrid j
    + fold ngrid k * fold ngrid k : ℕ))

/-- Embeds `let m: usize = (0.5 + r.sqrt()) as usize`: the cast of a
non-negative f64 to usize truncates, i.e. takes the natural floor. -/
noncomputable def mIndex (ngrid i j k : ℕ) : ℕ := ⌊(0.5 : ℝ) + rDist ngrid i j k⌋₊

/-- Embeds `let g = w[i]*w[i] + w[j]*w[j] + w[k]*w[k]`. -/
noncomputable def gval (ngrid : ℕ) (boxsize : ℝ) (i j k : ℕ) : ℝ :=
  wval ngrid boxsize i * wval ngrid boxsize i
    + wval ngrid boxsize j * wval ngrid boxsize j
    + wval ngrid boxsize k * wval ngrid boxsize k

/-- Embeds `let scale: usize = (0.5 + (g * coeff).sqrt()) as usize`. -/
noncomputable def scaleIndex (ngrid : ℕ) (boxsize : ℝ) (i j k : ℕ) : ℕ :=
  ⌊(0.5 : ℝ) + Real.sqrt (gval ngrid boxsize i j k * coeff boxsize)⌋₊

/-- Embeds `let index: usize = k + ngrid * (j + ngrid * i)`. -/
def flatIndex (ngrid i j k : ℕ) : ℕ := k + ngrid * (j + ngrid * i)

/-- Embeds `let contrib = out1[index] * out2[index].conj()
+ out1[index].conj() * out2[index]`. -/
noncomputable def contrib (out1 out2 : ℕ → ℂ) (idx : ℕ) : ℂ :=
  out1 idx * (starRingEnd ℂ) (out2 idx) + (starRingEnd ℂ) (out1 idx) * out2 idx

/-- Embeds fn sinc of src/lib.rs: 1.0 when theta < 1e-20, else
sin(theta)/theta. -/
noncomputable def sinc (theta : ℝ) : ℝ :=
  if theta < 1e-20 then 1 else Real.sin theta / theta

/-- The triple product of per-axis sinc factors (wngp in the source,
and the base of wcic): sinc(PI*w[i]/(2*kny)) * sinc(PI*w[j]/(2*kny))
* sinc(PI*w[k]/(2*kny)). -/
noncomputable def window (ngrid : ℕ) (boxsize : ℝ) (i j k : ℕ) : ℝ :=
  sinc (Real.pi * wval ngrid boxsize i / (2 * kny ngrid boxsize))
    * sinc (Real.pi * wval ngrid boxsize j / (2 * kny ngrid boxsize))
    * sinc (Real.pi * wval ngrid boxsize k / (2 * kny ngrid boxsize))

/-- The five mass-assignment correction variants of the source: the
feature-selected builds ngp_correction_single, cic_correction_single,
ngp_correction_both, cic_correction_both, and the default build with
none of those features.  The source selects one at compile time; the
embedding carries the choice as a value. -/
inductive CorrectionMode where
  | none
  | ngpSingle
  | cicSingle
  | ngpBoth
  | cicBoth

/-- The correction applied to contrib.re before accumulation, one
branch per feature-selected build of the source:
ngpSingle divides by wngp (the sinc triple product `window`),
cicSingle by wcic = window^2, ngpBoth by wngp * wngp, and
cicBoth by wcic * wcic; the default build leaves it unchanged. -/
noncomputable def correctedRe (mode : CorrectionMode) (ngrid : ℕ) (boxsize : ℝ)
    (i j k : ℕ) (x : ℝ) : ℝ :=
  match mode with
  | .none => x
  | .ngpSingle => x / window ngrid boxsize i j k
  | .cicSingle => x / (window ngrid boxsize i j k) ^ 2
  | .ngpBoth => x / (window ngrid boxsize i j k * window ngrid boxsize i j k)
  | .cicBoth =>
      x / ((window ngrid boxsize i j k) ^ 2 * (window ngrid boxsize i j k) ^ 2)

/-- The list of grid triples (i, j, k) visited by the three nested
`for` loops of `correlate`, in loop order. -/
def triples (n : ℕ) : List (ℕ × ℕ × ℕ) :=
  (List.range n).flatMap fun i =>
    (List.range n).flatMap fun j =>
      (List.range n).map fun k => (i, j, k)

/-- One iteration of the inner loop body acting on the pow_spec
vector: when g is zero the accumulation is skipped, otherwise
`pow_spec[scale] += contrib.re / 2.0` after the selected correction. -/
noncomputable def powStep (ngrid : ℕ) (boxsize : ℝ) (mode : CorrectionMode)
    (out1 out2 : ℕ → ℂ) (ps : ℕ → ℝ) (t : ℕ × ℕ × ℕ) : ℕ → ℝ :=
  if gval ngrid boxsize t.1 t.2.1 t.2.2 = 0 then ps
  else
    Function.update ps (scaleIndex ngrid boxsize t.1 t.2.1 t.2.2)
      (ps (scaleIndex ngrid boxsize t.1 t.2.1 t.2.2)
        + correctedRe mode ngrid boxsize t.1 t.2.1 t.2.2
            (contrib out1 out2 (flatIndex ngrid t.1 t.2.1 t.2.2)).re / 2)

/-- One iteration of the inner loop body acting on the iweights
vector: `iweights[m] += 1`, performed for every triple. -/
noncomputable def wtStep (ngrid : ℕ) (iw : ℕ → ℤ) (t : ℕ × ℕ × ℕ) : ℕ → ℤ :=
  Function.update iw (mIndex ngrid t.1 t.2.1 t.2.2)
    (iw (mIndex ngrid t.1 t.2.1 t.2.2) + 1)

/-- The pair (pow_spec, iweights) after the triple loop of
`correlate`, starting from the all-zero vectors
`vec![0.0; ngrid]` and `vec![0; ngrid]`. -/
noncomputable def loopState (ngrid : ℕ) (boxsize : ℝ) (mode : CorrectionMode)
    (out1 out2 : ℕ → ℂ) : (ℕ → ℝ) × (ℕ → ℤ) :=
  (triples ngrid).foldl
    (fun st t => (powStep ngrid boxsize mode out1 out2 st.1 t, wtStep ngrid st.2 t))
    (fun _ => 0, fun _ => 0)

/-- The accumulated radial power sum, before normalization. -/
noncomputable def powSumAt (ngrid : ℕ) (boxsize : ℝ) (mode : CorrectionMode)
    (out1 out2 : ℕ → ℂ) (s : ℕ) : ℝ :=
  (loopState ngrid boxsize mode out1 out2).1 s

/-- The accumulated per-bin sample count. -/
noncomputable def iweightsAt (ngrid : ℕ) (boxsize : ℝ) (mode : CorrectionMode)
    (out1 out2 : ℕ → ℂ) (m : ℕ) : ℤ :=
  (loopState ngrid boxsize mode out1 out2).2 m

/-- The amount added to pow_spec at the bin of a triple: zero when the
DC check `g != 0.0` fails, else the corrected contribution halved. -/
noncomputable def powAmount (ngrid : ℕ) (boxsize : ℝ) (mode : CorrectionMode)
    (out1 out2 : ℕ → ℂ) (t : ℕ × ℕ × ℕ) : ℝ :=
  if gval ngrid boxsize t.1 t.2.1 t.2.2 = 0 then 0
  else
    correctedRe mode ngrid boxsize t.1 t.2.1 t.2.2
      (contrib out1 out2 (flatIndex ngrid t.1 t.2.1 t.2.2)).re / 2

/-- The Output value assembled by `correlate`: the w table, the
pow_spec vector with its first nhalf entries normalized in place by
`pow_spec[i] *= boxsize.powi(3) / (ngrid as f64).powi(6)` and
`pow_spec[i] /= iweights[i] as f64`, the deltasqk vector
`w[i].powf(3.0) * pow_spec[i] / (2.0 * PI * PI)` pushed for each
i < nhalf (powf on the non-negative w[i] is the real cube), and the
iweights vector. -/
noncomputable def correlateOut (c : Config) (mode : CorrectionMode)
    (out1 out2 : ℕ → ℂ) : Output :=
  let n := c.ngrid
  let b := c.boxsize
  let st := loopState n b mode out1 out2
  { w := wTable n b
    pow_spec := (List.range n).map fun i =>
      if i < nhalf n then st.1 i * (b ^ 3 / (n : ℝ) ^ 6) / ((st.2 i : ℤ) : ℝ)
      else st.1 i
    deltasqk := (List.range (nhalf n)).map fun i =>
      wval n b i ^ 3 * (st.1 i * (b ^ 3 / (n : ℝ) ^ 6) / ((st.2 i : ℤ) : ℝ))
        / (2 * Real.pi * Real.pi)
    iweights := (List.range n).map fun m => st.2 m }

/-- Embeds pub fn correlate of src/lib.rs: every path of its body
reaches the final `Ok(Output { .. })`, so the Result is always Ok. -/
noncomputable def correlate (c : Config) (mode : CorrectionMode)
    (out1 out2 : ℕ → ℂ) : Except String Output :=
  Except.ok (correlateOut c mode out1 out2)

/-- The signed frequency integer behind slot i of the w vector: the
two branches of wval are kf times this integer. -/
def qInt (n i : ℕ) : ℤ := if i ≤ nhalf n then (i : ℤ) else (i : ℤ) - (n : ℤ)

/-- The net power of the window divisor of each correction mode: the
source divides contrib.re by wngp, wcic = wngp^2, wngp*wngp, or
wcic*wcic, i.e. by the sinc triple product raised to 1, 2, 2, or 4;
the default build divides by nothing (power 0). -/
def CorrectionMode.expo : CorrectionMode → ℕ
  | .none => 0
  | .ngpSingle => 1
  | .cicSingle => 2
  | .ngpBoth => 2
  | .cicBoth => 4

/-- Model of an IEEE f64 datum for the claims that concern special
values: a finite real, an infinity of either sign, or NaN.  Rounding
and overflow of finite operations are idealized away; only the
special-value propagation rules of IEEE 754 are modelled (signed
zeros are collapsed onto the single real zero, treated as +0). -/
inductive F where
  | fin : ℝ → F
  | pinf
  | ninf
  | nan

/-- Finiteness predicate on the f64 model. -/
def F.isFinite : F → Bool
  | .fin _ => true
  | _ => false

/-- IEEE multiplication on the f64 model. -/
noncomputable def F.mul : F → F → F
  | .nan, _ => .nan
  | _, .nan => .nan
  | .fin a, .fin b => .fin (a * b)
  | .fin a, .pinf => if 0 < a then .pinf else if a < 0 then .ninf else .nan
  | .fin a, .ninf => if 0 < a then .ninf else if a < 0 then .pinf else .nan
  | .pinf, .fin b => if 0 < b then .pinf else if b < 0 then .ninf else .nan
  | .ninf, .fin b => if 0 < b then .ninf else if b < 0 then .pinf else .nan
  | .pinf, .pinf => .pinf
  | .pinf, .ninf => .ninf
  | .ninf, .pinf => .ninf
  | .ninf, .ninf => .pinf

/-- IEEE division on the f64 model (zero treated as +0). -/
noncomputable def F.div : F → F → F
  | .nan, _ => .nan
  | _, .nan => .nan
  | .fin a, .fin b =>
      if b = 0 then (if a = 0 then .nan else if 0 < a then .pinf else .ninf)
      else .fin (a / b)
  | .fin _, .pinf => .fin 0
  | .fin _, .ninf => .fin 0
  | .pinf, .fin b => if 0 ≤ b then .pinf else .ninf
  | .ninf, .fin b => if 0 ≤ b then .ninf else .pinf
  | .pinf, _ => .nan
  | .ninf, _ => .nan

/-- The normalization division of `correlate` carried out in the f64
model: pow_spec[i] holds the accumulated real sum, is multiplied by
the finite factor boxsize^3/ngrid^6 and divided by iweights[i] cast
to f64. -/
noncomputable def normSpecF (powSum boxsize : ℝ) (ngrid : ℕ) (weight : ℤ) : F :=
  F.div (F.fin (powSum * (boxsize ^ 3 / (ngrid : ℝ) ^ 6))) (F.fin ((weight : ℤ) : ℝ))

/-- The dimensionless-power expression of `correlate` carried out in
the f64 model on the (possibly non-finite) normalized pow_spec
entry: w[i]^3 * pow_spec[i] / (2*PI*PI). -/
noncomputable def deltasqkF (w : ℝ) (ps : F) : F :=
  F.div (F.mul (F.fin (w ^ 3)) ps) (F.fin (2 * Real.pi * Real.pi))

section FoldLemmas

variable {δ : Type} {M : Type}

/-- Splitting a fold over a pair state whose components evolve
independently. -/
theorem foldl_pair_split {α γ : Type} (f : α → δ → α) (g : γ → δ → γ) :
    ∀ (l : List δ) (a : α) (c : γ),
      l.foldl (fun p d => (f p.1 d, g p.2 d)) (a, c) = (l.foldl f a, l.foldl g c) := by
  intro l
  induction l with
  | nil => intro a c; rfl
  | cons d l ih => intro a c; simpa using ih (f a d) (g c d)

/-- A fold of single-cell additive updates, read at one cell, is the
initial value plus the sum of the amounts routed to that cell. -/
theorem foldl_update_sum [AddCommMonoid M] (idx : δ → ℕ) (amt : δ → M) :
    ∀ (l : List δ) (init : ℕ → M) (s : ℕ),
      (l.foldl (fun st d => Function.update st (idx d) (st (idx d) + amt d)) init) s
        = init s + (l.map fun d => if idx d = s then amt d else 0).sum := by
  intro l
  induction l with
  | nil => intro init s; simp
  | cons d l ih =>
      intro init s
      rw [List.foldl_cons, ih, List.map_cons, List.sum_cons]
      by_cases h : idx d = s
      · subst h
        rw [Function.update_same, if_pos rfl, add_assoc]
      · rw [Function.update_noteq (fun hs => h hs.symm), if_neg h, zero_add]

/-- The pow_spec loop body in unconditional-update form: skipping the
zero-g case is the same as adding the zero amount. -/
theorem powStep_eq_update (ngrid : ℕ) (boxsize : ℝ) (mode : CorrectionMode)
    (out1 out2 : ℕ → ℂ) (ps : ℕ → ℝ) (t : ℕ × ℕ × ℕ) :
    powStep ngrid boxsize mode out1 out2 ps t
      = Function.update ps (scaleIndex ngrid boxsize t.1 t.2.1 t.2.2)
          (ps (scaleIndex ngrid boxsize t.1 t.2.1 t.2.2)
            + powAmount ngrid boxsize mode out1 out2 t) := by
  unfold powStep powAmount
  by_cases h : gval ngrid boxsize t.1 t.2.1 t.2.2 = 0
  · rw [if_pos h, if_pos h, add_zero, Function.update_eq_self]
  · rw [if_neg h, if_neg h]

/-- Closed form of the accumulated power sum as a sum over all grid
triples. -/
theorem powSumAt_eq_sum (ngrid : ℕ) (boxsize : ℝ) (mode : CorrectionMode)
    (out1 out2 : ℕ → ℂ) (s : ℕ) :
    powSumAt ngrid boxsize mode out1 out2 s
      = ((triples ngrid).map fun t =>
          if scaleIndex ngrid boxsize t.1 t.2.1 t.2.2 = s
          then powAmount ngrid boxsize mode out1 out2 t else 0).sum := by
  unfold powSumAt loopState
  rw [foldl_pair_split]
  have h : powStep ngrid boxsize mode out1 out2
      = fun ps t => Function.update ps (scaleIndex ngrid boxsize t.1 t.2.1 t.2.2)
          (ps (scaleIndex ngrid boxsize t.1 t.2.1 t.2.2)
            + powAmount ngrid boxsize mode out1 out2 t) := by
    funext ps t
    exact powStep_eq_update ngrid boxsize mode out1 out2 ps t
  dsimp only
  rw [h]
  simpa using foldl_update_sum (fun t : ℕ × ℕ × ℕ => scaleIndex ngrid boxsize t.1 t.2.1 t.2.2)
    (powAmount ngrid boxsize mode out1 out2) (triples ngrid) (fun _ => 0) s

/-- Closed form of the shell sample count as a sum of indicator terms
over all grid triples: the increment happens for every triple. -/
theorem iweightsAt_eq_sum (ngrid : ℕ) (boxsize : ℝ) (mode : CorrectionMode)
    (out1 out2 : ℕ → ℂ) (m : ℕ) :
    iweightsAt ngrid boxsize mode out1 out2 m
      = ((triples ngrid).map fun t =>
          if mIndex ngrid t.1 t.2.1 t.2.2 = m then (1 : ℤ) else 0).sum := by
  unfold iweightsAt loopState
  rw [foldl_pair_split]
  have h : wtStep ngrid = fun iw t =>
      Function.update iw (mIndex ngrid t.1 t.2.1 t.2.2)
        (iw (mIndex ngrid t.1 t.2.1 t.2.2) + (fun _ : ℕ × ℕ × ℕ => (1 : ℤ)) t) := by
    funext iw t
    rfl
  dsimp only
  rw [h]
  simpa using foldl_update_sum (fun t : ℕ × ℕ × ℕ => mIndex ngrid t.1 t.2.1 t.2.2)
    (fun _ => (1 : ℤ)) (triples ngrid) (fun _ => 0) m

end FoldLemmas

section TableLemmas

/-- Reading a mapped range at an in-range index. -/
theorem getD_map_range {α : Type} (f : ℕ → α) (d : α) {n i : ℕ} (hi : i < n) :
    (((List.range n).map f).getD i d) = f i := by
  rw [List.getD_eq_getElem?_getD, List.getElem?_map, List.getElem?_range hi]
  rfl

/-- The w vector has exactly ngrid entries when ngrid is positive. -/
theorem wTable_length {n : ℕ} (b : ℝ) (hn : 0 < n) : (wTable n b).length = n := by
  have h : nhalf n + 1 ≤ n := by
    unfold nhalf
    omega
  simp [wTable]
  omega

/-- The w vector agrees with the branch description wval at every
in-range index. -/
theorem wTable_getD {n i : ℕ} (b : ℝ) (hi : i < n) :
    (wTable n b).getD i 0 = wval n b i := by
  have hlen : ((List.range (nhalf n + 1)).map
      (fun i : ℕ => kf b * (i : ℝ))).length = nhalf n + 1 := by simp
  rw [wTable, List.getD_eq_getElem?_getD]
  by_cases hcase : i ≤ nhalf n
  · rw [List.getElem?_append_left (by omega), List.getElem?_map,
      List.getElem?_range (by omega)]
    simp [wval, hcase]
  · have hge : nhalf n + 1 ≤ i := by omega
    have hh : nhalf n + 1 ≤ n := by
      unfold nhalf
      omega
    rw [List.getElem?_append_right (by simpa using hge), List.getElem?_map]
    rw [hlen, List.getElem?_range' (nhalf n + 1) 1 (by omega)]
    have harith : nhalf n + 1 + 1 * (i - (nhalf n + 1)) = i := by omega
    simp only [harith, Option.map_some', Option.getD_some]
    simp [wval, hcase]

/-- Membership in the triple list is exactly componentwise range
membership. -/
theorem mem_triples {n : ℕ} {t : ℕ × ℕ × ℕ} :
    t ∈ triples n ↔ t.1 < n ∧ t.2.1 < n ∧ t.2.2 < n := by
  obtain ⟨i, j, k⟩ := t
  simp only [triples, List.mem_flatMap, List.mem_map, List.mem_range]
  constructor
  · rintro ⟨a, ha, c, hc, e, he, heq⟩
    obtain ⟨h1, h2, h3⟩ := Prod.mk.injEq .. ▸ heq
    subst h1
    cases heq
    exact ⟨ha, hc, he⟩
  · rintro ⟨hi, hj, hk⟩
    exact ⟨i, hi, j, hj, k, hk, rfl⟩

/-- Every w slot is kf times its signed frequency integer. -/
theorem wval_eq_kf_qInt (n : ℕ) (b : ℝ) (i : ℕ) :
    wval n b i = kf b * ((qInt n i : ℤ) : ℝ) := by
  unfold wval qInt
  by_cases h : i ≤ nhalf n
  · simp [h]
  · simp [h]

end TableLemmas

/-- C5: for every ngrid > 0 and boxsize > 0, the wavenumber table
built by correlate has length ngrid, starts at 0, maps every index
i ≤ ngrid/2 to kf*i, and maps every index with ngrid/2 < i < ngrid to
kf*(i - ngrid), where kf = 2*pi/boxsize. -/
theorem c5_wavenumber_table (n : ℕ) (b : ℝ) (hn : 0 < n) (hb : 0 < b) :
    (wTable n b).length = n ∧ (wTable n b).getD 0 0 = 0
      ∧ (∀ i, i ≤ n / 2 → (wTable n b).getD i 0 = kf b * i)
      ∧ ∀ i, n / 2 < i → i < n → (wTable n b).getD i 0 = kf b * ((i : ℤ) - (n : ℤ)) := by
  have hhalf : n / 2 < n := Nat.div_lt_self hn (by norm_num)
  refine ⟨wTable_length b hn, ?_, ?_, ?_⟩
  · rw [wTable_getD b hn, wval, if_pos (Nat.zero_le _)]
    simp
  · intro i hi
    rw [wTable_getD b (by omega), wval, if_pos (show i ≤ nhalf n from hi)]
  · intro i hlo hhi
    rw [wTable_getD b hhi, wval,
      if_neg (show ¬ i ≤ nhalf n from Nat.not_le.mpr hlo)]

/-- C5 witness at ngrid = 4, boxsize = 1. -/
theorem c5_wavenumber_table_witness :
    (wTable 4 1).length = 4 ∧ (wTable 4 1).getD 0 0 = 0
      ∧ (∀ i, i ≤ 4 / 2 → (wTable 4 1).getD i 0 = kf 1 * i)
      ∧ ∀ i, 4 / 2 < i → i < 4 → (wTable 4 1).getD i 0 = kf 1 * ((i : ℤ) - (4 : ℤ)) :=
  c5_wavenumber_table 4 1 (by norm_num) (by norm_num)

/-- C3 counterexample: at the odd grid size ngrid = 3 the claim fails
for the in-range index i = 1: the fold is not idempotent there
(fold 3 1 = 2 but fold 3 2 = 1) and its value 2 escapes [0, ngrid/2]. -/
theorem c3_counterexample :
    0 < 3 ∧ 1 < 3 ∧ fold 3 (fold 3 1) ≠ fold 3 1 ∧ ¬ fold 3 1 ≤ 3 / 2 := by
  decide

/-- C3 (amended to even ngrid): for even ngrid > 0 and every axis
index i < ngrid, the per-axis fold is idempotent, its result lies in
[0, ngrid/2], and the boundary index nhalf folds to itself. -/
theorem c3_fold_idempotent (n i : ℕ) (hn : 0 < n) (he : n % 2 = 0) (hi : i < n) :
    fold n (fold n i) = fold n i ∧ fold n i ≤ n / 2
      ∧ fold n (nhalf n) = nhalf n := by
  unfold fold nhalf
  split_ifs <;> omega

/-- C3 witness at ngrid = 4, i = 3. -/
theorem c3_fold_idempotent_witness :
    fold 4 (fold 4 3) = fold 4 3 ∧ fold 4 3 ≤ 4 / 2
      ∧ fold 4 (nhalf 4) = nhalf 4 :=
  c3_fold_idempotent 4 3 (by decide) (by decide) (by decide)

/-- C9 counterexample: at ngrid = 4 the w vector of the returned
Output has length 4 = ngrid, not nhalf = 2, so the four output
sequences do not all have length nhalf. -/
theorem c9_counterexample :
    (correlateOut ⟨4, 1⟩ CorrectionMode.none (fun _ => 0) (fun _ => 0)).w.length
      ≠ nhalf 4 := by
  have h := wTable_length (n := 4) (1 : ℝ) (by norm_num)
  simp only [correlateOut]
  rw [h]
  decide

/-- C9 (amended): the Output of correlate consists of four sequences,
of which deltasqk has length nhalf = ngrid/2 while w, pow_spec and
iweights have the full length ngrid; only the first nhalf entries of
the latter three are written out by the result writer. -/
theorem c9_output_lengths (c : Config) (mode : CorrectionMode)
    (o1 o2 : ℕ → ℂ) (hn : 0 < c.ngrid) :
    (correlateOut c mode o1 o2).w.length = c.ngrid
      ∧ (correlateOut c mode o1 o2).pow_spec.length = c.ngrid
      ∧ (correlateOut c mode o1 o2).deltasqk.length = nhalf c.ngrid
      ∧ (correlateOut c mode o1 o2).iweights.length = c.ngrid := by
  refine ⟨?_, ?_, ?_, ?_⟩ <;>
    simp [correlateOut, wTable_length _ hn]

/-- C9 witness at ngrid = 4, boxsize = 1. -/
theorem c9_output_lengths_witness :
    (correlateOut ⟨4, 1⟩ CorrectionMode.none (fun _ => 0) (fun _ => 0)).w.length = 4
      ∧ (correlateOut ⟨4, 1⟩ CorrectionMode.none (fun _ => 0) (fun _ => 0)).pow_spec.length = 4
      ∧ (correlateOut ⟨4, 1⟩ CorrectionMode.none (fun _ => 0) (fun _ => 0)).deltasqk.length = nhalf 4
      ∧ (correlateOut ⟨4, 1⟩ CorrectionMode.none (fun _ => 0) (fun _ => 0)).iweights.length = 4 :=
  c9_output_lengths ⟨4, 1⟩ CorrectionMode.none (fun _ => 0) (fun _ => 0) (by decide)

/-- C7: when the two spectra are identical, every contribution
out1[idx]*conj(out2[idx]) + conj(out1[idx])*out2[idx] is exactly twice
the squared magnitude of out1[idx], with zero imaginary part. -/
theorem c7_auto_spectrum (out1 out2 : ℕ → ℂ) (idx : ℕ) (h : out1 = out2) :
    (contrib out1 out2 idx).re = 2 * Complex.abs (out1 idx) ^ 2
      ∧ (contrib out1 out2 idx).im = 0 := by
  subst h
  unfold contrib
  rw [Complex.mul_conj, mul_comm ((starRingEnd ℂ) (out1 idx)), Complex.mul_conj]
  constructor
  · rw [Complex.sq_abs]
    simp [Complex.add_re]
    ring
  · simp

/-- C7 witness at the constant spectrum I. -/
theorem c7_auto_spectrum_witness :
    (contrib (fun _ : ℕ => Complex.I) (fun _ : ℕ => Complex.I) 0).re
        = 2 * Complex.abs ((fun _ : ℕ => Complex.I) 0) ^ 2
      ∧ (contrib (fun _ : ℕ => Complex.I) (fun _ : ℕ => Complex.I) 0).im = 0 :=
  c7_auto_spectrum (fun _ => Complex.I) (fun _ => Complex.I) 0 rfl

section ArithLemmas

/-- kf is nonzero for a positive box size. -/
theorem kf_ne_zero {b : ℝ} (hb : 0 < b) : kf b ≠ 0 := by
  unfold kf
  have hpi := Real.pi_pos
  positivity

/-- The signed frequency integer vanishes only at the DC slot. -/
theorem qInt_eq_zero_iff {n i : ℕ} (hi : i < n) : qInt n i = 0 ↔ i = 0 := by
  unfold qInt nhalf
  split_ifs with h <;> constructor <;> intro h2 <;> omega

/-- A w slot vanishes only at the DC slot. -/
theorem wval_eq_zero_iff {n i : ℕ} {b : ℝ} (hb : 0 < b) (hi : i < n) :
    wval n b i = 0 ↔ i = 0 := by
  rw [wval_eq_kf_qInt, mul_eq_zero]
  simp [kf_ne_zero hb, Int.cast_eq_zero, qInt_eq_zero_iff hi]

/-- The DC slot of the w vector is zero. -/
theorem wval_zero (n : ℕ) (b : ℝ) : wval n b 0 = 0 := by
  unfold wval
  simp

/-- g vanishes at the origin triple. -/
theorem gval_origin (n : ℕ) (b : ℝ) : gval n b 0 0 0 = 0 := by
  unfold gval
  rw [wval_zero]
  ring

/-- Scaling g by coeff recovers the squared integer frequency radius,
independent of the box size. -/
theorem gval_mul_coeff (n : ℕ) {b : ℝ} (hb : b ≠ 0) (i j k : ℕ) :
    gval n b i j k * coeff b
      = (((qInt n i) ^ 2 + (qInt n j) ^ 2 + (qInt n k) ^ 2 : ℤ) : ℝ) := by
  have hkf : kf b * (b / (2 * Real.pi)) = 1 := by
    unfold kf
    field_simp
  have key : ∀ q : ℝ, kf b * q * (kf b * q) * (b / (2 * Real.pi)) ^ 2 = q ^ 2 := by
    intro q
    have h : kf b * q * (kf b * q) * (b / (2 * Real.pi)) ^ 2
        = (kf b * (b / (2 * Real.pi))) ^ 2 * q ^ 2 := by ring
    rw [h, hkf, one_pow, one_mul]
  unfold gval coeff
  rw [wval_eq_kf_qInt, wval_eq_kf_qInt, wval_eq_kf_qInt]
  push_cast
  calc (kf b * (qInt n i : ℝ) * (kf b * (qInt n i : ℝ))
        + kf b * (qInt n j : ℝ) * (kf b * (qInt n j : ℝ))
        + kf b * (qInt n k : ℝ) * (kf b * (qInt n k : ℝ))) * (b / (2 * Real.pi)) ^ 2
      = kf b * (qInt n i : ℝ) * (kf b * (qInt n i : ℝ)) * (b / (2 * Real.pi)) ^ 2
        + kf b * (qInt n j : ℝ) * (kf b * (qInt n j : ℝ)) * (b / (2 * Real.pi)) ^ 2
        + kf b * (qInt n k : ℝ) * (kf b * (qInt n k : ℝ)) * (b / (2 * Real.pi)) ^ 2 := by
        ring
    _ = ((qInt n i : ℝ)) ^ 2 + ((qInt n j : ℝ)) ^ 2 + ((qInt n k : ℝ)) ^ 2 := by
        rw [key, key, key]

/-- g vanishes exactly at the origin triple, for in-range indices and
a positive box size. -/
theorem gval_eq_zero_iff {n i j k : ℕ} {b : ℝ} (hb : 0 < b)
    (hi : i < n) (hj : j < n) (hk : k < n) :
    gval n b i j k = 0 ↔ i = 0 ∧ j = 0 ∧ k = 0 := by
  unfold gval
  constructor
  · intro h0
    have hii := mul_self_nonneg (wval n b i)
    have hjj := mul_self_nonneg (wval n b j)
    have hkk := mul_self_nonneg (wval n b k)
    refine ⟨(wval_eq_zero_iff hb hi).mp ?_, (wval_eq_zero_iff hb hj).mp ?_,
      (wval_eq_zero_iff hb hk).mp ?_⟩ <;>
      [ skip; skip; skip ] <;>
      · apply mul_self_eq_zero.mp
        nlinarith
  · rintro ⟨rfl, rfl, rfl⟩
    rw [wval_zero]
    ring

end ArithLemmas

/-- C1: for every bin i < nhalf, the normalized power output equals
the accumulated powSum[i] times boxsize^3 over ngrid^6 over
iweights[i], and the dimensionless power equals w[i]^3 times that,
over 2*pi^2. -/
theorem c1_normalization (c : Config) (mode : CorrectionMode) (o1 o2 : ℕ → ℂ)
    (i : ℕ) (hn : 0 < c.ngrid) (hi : i < nhalf c.ngrid) :
    (correlateOut c mode o1 o2).pow_spec.getD i 0
        = powSumAt c.ngrid c.boxsize mode o1 o2 i * c.boxsize ^ 3
            / (c.ngrid : ℝ) ^ 6 / ((iweightsAt c.ngrid c.boxsize mode o1 o2 i : ℤ) : ℝ)
      ∧ (correlateOut c mode o1 o2).deltasqk.getD i 0
        = (correlateOut c mode o1 o2).w.getD i 0 ^ 3
            * (correlateOut c mode o1 o2).pow_spec.getD i 0 / (2 * Real.pi ^ 2) := by
  have hin : i < c.ngrid := lt_of_lt_of_le hi (Nat.div_le_self _ _)
  have hps : (correlateOut c mode o1 o2).pow_spec.getD i 0
      = (loopState c.ngrid c.boxsize mode o1 o2).1 i
          * (c.boxsize ^ 3 / (c.ngrid : ℝ) ^ 6)
          / (((loopState c.ngrid c.boxsize mode o1 o2).2 i : ℤ) : ℝ) := by
    simp only [correlateOut]
    rw [getD_map_range _ _ hin, if_pos hi]
  constructor
  · rw [hps]
    unfold powSumAt iweightsAt
    ring
  · rw [hps]
    have hd : (correlateOut c mode o1 o2).deltasqk.getD i 0
        = wval c.ngrid c.boxsize i ^ 3
            * ((loopState c.ngrid c.boxsize mode o1 o2).1 i
              * (c.boxsize ^ 3 / (c.ngrid : ℝ) ^ 6)
              / (((loopState c.ngrid c.boxsize mode o1 o2).2 i : ℤ) : ℝ))
            / (2 * Real.pi * Real.pi) := by
      simp only [correlateOut]
      rw [getD_map_range _ _ hi]
    have hw : (correlateOut c mode o1 o2).w.getD i 0 = wval c.ngrid c.boxsize i := by
      simp only [correlateOut]
      exact wTable_getD _ hin
    rw [hd, hw]
    ring

/-- C1 witness at ngrid = 4, boxsize = 1, bin 1, zero spectra. -/
theorem c1_normalization_witness :
    (correlateOut ⟨4, 1⟩ CorrectionMode.none (fun _ => 0) (fun _ => 0)).pow_spec.getD 1 0
        = powSumAt 4 1 CorrectionMode.none (fun _ => 0) (fun _ => 0) 1 * (1 : ℝ) ^ 3
            / ((4 : ℕ) : ℝ) ^ 6
            / ((iweightsAt 4 1 CorrectionMode.none (fun _ => 0) (fun _ => 0) 1 : ℤ) : ℝ)
      ∧ (correlateOut ⟨4, 1⟩ CorrectionMode.none (fun _ => 0) (fun _ => 0)).deltasqk.getD 1 0
        = (correlateOut ⟨4, 1⟩ CorrectionMode.none (fun _ => 0) (fun _ => 0)).w.getD 1 0 ^ 3
            * (correlateOut ⟨4, 1⟩ CorrectionMode.none (fun _ => 0) (fun _ => 0)).pow_spec.getD 1 0
            / (2 * Real.pi ^ 2) :=
  c1_normalization ⟨4, 1⟩ CorrectionMode.none (fun _ => 0) (fun _ => 0) 1
    (by decide) (by decide)

/-- C6: g vanishes exactly at the origin triple, so power
accumulation is skipped exactly there; the origin values of the
input spectra never influence the accumulated power sums; and the
shell count at m is the number of triples whose rounded grid radius
is m, incremented for every one of the ngrid^3 triples regardless of
the power skip. -/
theorem c6_dc_exclusion (n : ℕ) (b : ℝ) (mode : CorrectionMode)
    (o1 o2 : ℕ → ℂ) (v1 v2 : ℂ) (hn : 0 < n) (hb : 0 < b) :
    (∀ i j k, i < n → j < n → k < n →
        (gval n b i j k = 0 ↔ i = 0 ∧ j = 0 ∧ k = 0))
      ∧ (∀ s, powSumAt n b mode (Function.update o1 (flatIndex n 0 0 0) v1)
            (Function.update o2 (flatIndex n 0 0 0) v2) s
          = powSumAt n b mode o1 o2 s)
      ∧ ∀ m, iweightsAt n b mode o1 o2 m
          = ((triples n).map fun t =>
              if mIndex n t.1 t.2.1 t.2.2 = m then (1 : ℤ) else 0).sum := by
  refine ⟨fun i j k hi hj hk => gval_eq_zero_iff hb hi hj hk, ?_,
    fun m => iweightsAt_eq_sum n b mode o1 o2 m⟩
  intro s
  rw [powSumAt_eq_sum, powSumAt_eq_sum]
  congr 1
  apply List.map_congr_left
  intro t ht
  have hpa : powAmount n b mode (Function.update o1 (flatIndex n 0 0 0) v1)
      (Function.update o2 (flatIndex n 0 0 0) v2) t = powAmount n b mode o1 o2 t := by
    by_cases horig : t.1 = 0 ∧ t.2.1 = 0 ∧ t.2.2 = 0
    · obtain ⟨h1, h2, h3⟩ := horig
      unfold powAmount
      rw [h1, h2, h3, if_pos (gval_origin n b), if_pos (gval_origin n b)]
    · have hz : flatIndex n 0 0 0 = 0 := by
        simp [flatIndex]
      have hne : flatIndex n t.1 t.2.1 t.2.2 ≠ flatIndex n 0 0 0 := by
        rw [hz]
        unfold flatIndex
        intro hEq
        apply horig
        rcases Nat.add_eq_zero.mp hEq with ⟨hk0, hmul⟩
        rcases Nat.mul_eq_zero.mp hmul with hn0 | hsum
        · omega
        · rcases Nat.add_eq_zero.mp hsum with ⟨hj0, hmul2⟩
          rcases Nat.mul_eq_zero.mp hmul2 with hn0 | hi0
          · omega
          · exact ⟨hi0, hj0, hk0⟩
      have hc : contrib (Function.update o1 (flatIndex n 0 0 0) v1)
          (Function.update o2 (flatIndex n 0 0 0) v2)
          (flatIndex n t.1 t.2.1 t.2.2) = contrib o1 o2 (flatIndex n t.1 t.2.1 t.2.2) := by
        unfold contrib
        rw [Function.update_noteq hne, Function.update_noteq hne]
      unfold powAmount
      rw [hc]
  rw [hpa]

/-- C6 witness at ngrid = 4, boxsize = 1, zero spectra, origin values
replaced by 1. -/
theorem c6_dc_exclusion_witness :
    (∀ i j k, i < 4 → j < 4 → k < 4 →
        (gval 4 1 i j k = 0 ↔ i = 0 ∧ j = 0 ∧ k = 0))
      ∧ (∀ s, powSumAt 4 1 CorrectionMode.none
            (Function.update (fun _ => 0) (flatIndex 4 0 0 0) 1)
            (Function.update (fun _ => 0) (flatIndex 4 0 0 0) 1) s
          = powSumAt 4 1 CorrectionMode.none (fun _ => 0) (fun _ => 0) s)
      ∧ ∀ m, iweightsAt 4 1 CorrectionMode.none (fun _ => 0) (fun _ => 0) m
          = ((triples 4).map fun t =>
              if mIndex 4 t.1 t.2.1 t.2.2 = m then (1 : ℤ) else 0).sum :=
  c6_dc_exclusion 4 1 CorrectionMode.none (fun _ => 0) (fun _ => 0) 1 1
    (by decide) (by norm_num)

/-- C4: for a non-DC triple, the amount accumulated into the radial
bin is the symmetrized contribution divided by the sinc window raised
to the power of the active correction mode (0 for no correction, 1
for NGP on one field, 2 for CIC on one field, 2 for NGP on both, 4
for CIC on both), then halved. -/
theorem c4_correction (n : ℕ) (b : ℝ) (mode : CorrectionMode) (o1 o2 : ℕ → ℂ)
    (i j k : ℕ) (hg : gval n b i j k ≠ 0) :
    powAmount n b mode o1 o2 (i, j, k)
      = (contrib o1 o2 (flatIndex n i j k)).re
          / window n b i j k ^ CorrectionMode.expo mode / 2 := by
  unfold powAmount
  dsimp only
  rw [if_neg hg]
  cases mode
  · simp [correctedRe, CorrectionMode.expo]
  · simp [correctedRe, CorrectionMode.expo]
  · simp [correctedRe, CorrectionMode.expo]
  · simp only [correctedRe, CorrectionMode.expo]
    rw [pow_two]
  · simp only [correctedRe, CorrectionMode.expo]
    rw [show (4 : ℕ) = 2 + 2 from rfl, pow_add]

/-- C4 witness: the CIC-both mode at the non-DC triple (1,0,0) of a
2-cell grid with unit box. -/
theorem c4_correction_witness :
    powAmount 2 1 CorrectionMode.cicBoth (fun _ => 1) (fun _ => 1) (1, 0, 0)
      = (contrib (fun _ => 1) (fun _ => 1) (flatIndex 2 1 0 0)).re
          / window 2 1 1 0 0 ^ CorrectionMode.expo CorrectionMode.cicBoth / 2 := by
  refine c4_correction 2 1 CorrectionMode.cicBoth (fun _ => 1) (fun _ => 1) 1 0 0 ?_
  have hpi := Real.pi_pos
  have h1 : wval 2 1 1 = kf 1 * (1 : ℕ) := by
    unfold wval
    rw [if_pos (by decide : (1 : ℕ) ≤ nhalf 2)]
  have h0 : wval 2 1 0 = 0 := wval_zero 2 1
  unfold gval
  rw [h1, h0]
  have : kf 1 * ((1 : ℕ) : ℝ) = 2 * Real.pi := by
    unfold kf
    norm_num
  rw [this]
  nlinarith

section BoundLemmas

/-- The folded index never exceeds ngrid minus nhalf. -/
theorem fold_le {n i : ℕ} (hi : i < n) : fold n i ≤ n - nhalf n := by
  unfold fold nhalf
  split_ifs <;> omega

/-- The squared signed frequency integer never exceeds the square of
ngrid minus nhalf. -/
theorem qInt_sq_le {n i : ℕ} (hi : i < n) :
    (qInt n i) ^ 2 ≤ ((n - nhalf n : ℕ) : ℤ) ^ 2 := by
  have h : -((n - nhalf n : ℕ) : ℤ) ≤ qInt n i ∧ qInt n i ≤ ((n - nhalf n : ℕ) : ℤ) := by
    unfold qInt nhalf
    split_ifs <;> constructor <;> push_cast <;> omega
  exact sq_le_sq' h.1 h.2

/-- The rounded radius of any point whose squared radius is at most
three times (ngrid - nhalf)^2 stays below ngrid, provided
7*(ngrid - nhalf) ≤ 4*ngrid - 2 (even ngrid of at least 4, or odd
ngrid of at least 11). -/
theorem floor_radius_lt (n : ℕ) (x : ℝ) (hx : 0 ≤ x) (hn : 0 < n)
    (h7 : 7 * (n - nhalf n) ≤ 4 * n - 2)
    (hle : x ≤ 3 * ((n - nhalf n : ℕ) : ℝ) ^ 2) :
    ⌊(0.5 : ℝ) + Real.sqrt x⌋₊ < n := by
  have ha1 : 1 ≤ n - nhalf n := by
    unfold nhalf
    omega
  set a : ℝ := ((n - nhalf n : ℕ) : ℝ) with hadef
  have ha : 1 ≤ a := by
    rw [hadef]
    exact_mod_cast ha1
  have h2n : 2 ≤ 4 * n := by omega
  have h7r : 7 * a ≤ 4 * (n : ℝ) - 2 := by
    calc 7 * a = ((7 * (n - nhalf n) : ℕ) : ℝ) := by push_cast; ring
      _ ≤ ((4 * n - 2 : ℕ) : ℝ) := Nat.cast_le.mpr h7
      _ = 4 * (n : ℝ) - 2 := by
          rw [Nat.cast_sub h2n]
          push_cast
          ring
  have hs3 : Real.sqrt 3 < 7 / 4 := by
    rw [show (7 / 4 : ℝ) = Real.sqrt ((7 / 4) ^ 2) from (Real.sqrt_sq (by norm_num)).symm]
    exact Real.sqrt_lt_sqrt (by norm_num) (by norm_num)
  have h1 : Real.sqrt x ≤ Real.sqrt 3 * a := by
    have hsq : Real.sqrt 3 * a = Real.sqrt (3 * a ^ 2) := by
      rw [Real.sqrt_mul (by norm_num), Real.sqrt_sq (by linarith)]
    rw [hsq]
    exact Real.sqrt_le_sqrt hle
  have h2 : Real.sqrt 3 * a < 7 / 4 * a :=
    mul_lt_mul_of_pos_right hs3 (by linarith)
  rw [Nat.floor_lt (by positivity)]
  linarith

/-- g times coeff is non-negative. -/
theorem gval_mul_coeff_nonneg (n : ℕ) (b : ℝ) (i j k : ℕ) :
    0 ≤ gval n b i j k * coeff b := by
  apply mul_nonneg
  · unfold gval
    have h1 := mul_self_nonneg (wval n b i)
    have h2 := mul_self_nonneg (wval n b j)
    have h3 := mul_self_nonneg (wval n b k)
    linarith
  · unfold coeff
    positivity

end BoundLemmas

/-- C2 counterexample: the claim fails at ngrid = 2 (boxsize 1): the
in-range triple (1,1,1) is assigned the m bin index
floor(0.5 + sqrt 3) = 2, which is not below ngrid = 2, so
`iweights[m] += 1` indexes out of bounds and panics. -/
theorem c2_counterexample :
    0 < 2 ∧ (0 : ℝ) < 1 ∧ 1 < 2 ∧ ¬ mIndex 2 1 1 1 < 2 := by
  refine ⟨by norm_num, by norm_num, by norm_num, ?_⟩
  have hfold : fold 2 1 = 1 := by decide
  have hsum : ((fold 2 1 * fold 2 1 + fold 2 1 * fold 2 1
      + fold 2 1 * fold 2 1 : ℕ) : ℝ) = 3 := by
    rw [hfold]
    norm_num
  unfold mIndex rDist
  rw [hsum]
  intro hlt
  rw [Nat.floor_lt (by positivity)] at hlt
  have h32 : (1.5 : ℝ) ≤ Real.sqrt 3 := by
    rw [show (1.5 : ℝ) = Real.sqrt (1.5 ^ 2) from (Real.sqrt_sq (by norm_num)).symm]
    exact Real.sqrt_le_sqrt (by norm_num)
  linarith

/-- C2 (amended): for even ngrid of at least 4 or odd ngrid of at
least 11, with positive boxsize, both bin indices of the accumulation
loop - the grid-radius bin m indexing iweights and the physical bin
scale indexing pow_spec - are strictly below ngrid for every in-range
triple, so neither array access can go out of bounds. -/
theorem c2_indices_lt_ngrid (n : ℕ) (b : ℝ) (i j k : ℕ)
    (hpar : n % 2 = 0 ∧ 4 ≤ n ∨ n % 2 = 1 ∧ 11 ≤ n)
    (hb : 0 < b) (hi : i < n) (hj : j < n) (hk : k < n) :
    mIndex n i j k < n ∧ scaleIndex n b i j k < n := by
  have hn : 0 < n := by omega
  have h7 : 7 * (n - nhalf n) ≤ 4 * n - 2 := by
    unfold nhalf
    omega
  constructor
  · unfold mIndex rDist
    apply floor_radius_lt n _ (by positivity) hn h7
    have hfi := fold_le hi
    have hfj := fold_le hj
    have hfk := fold_le hk
    have hnat : fold n i * fold n i + fold n j * fold n j + fold n k * fold n k
        ≤ 3 * (n - nhalf n) ^ 2 := by
      nlinarith
    calc ((fold n i * fold n i + fold n j * fold n j + fold n k * fold n k : ℕ) : ℝ)
        ≤ ((3 * (n - nhalf n) ^ 2 : ℕ) : ℝ) := Nat.cast_le.mpr hnat
      _ = 3 * ((n - nhalf n : ℕ) : ℝ) ^ 2 := by push_cast; ring
  · unfold scaleIndex
    apply floor_radius_lt n _ (gval_mul_coeff_nonneg n b i j k) hn h7
    rw [gval_mul_coeff n (ne_of_gt hb)]
    have hqi := qInt_sq_le hi
    have hqj := qInt_sq_le hj
    have hqk := qInt_sq_le hk
    have hint : (qInt n i) ^ 2 + (qInt n j) ^ 2 + (qInt n k) ^ 2
        ≤ 3 * ((n - nhalf n : ℕ) : ℤ) ^ 2 := by linarith
    calc (((qInt n i) ^ 2 + (qInt n j) ^ 2 + (qInt n k) ^ 2 : ℤ) : ℝ)
        ≤ ((3 * ((n - nhalf n : ℕ) : ℤ) ^ 2 : ℤ) : ℝ) := Int.cast_le.mpr hint
      _ = 3 * ((n - nhalf n : ℕ) : ℝ) ^ 2 := by push_cast; ring

/-- C2 witness at ngrid = 4, boxsize = 1, triple (3,3,3). -/
theorem c2_indices_lt_ngrid_witness :
    mIndex 4 3 3 3 < 4 ∧ scaleIndex 4 1 3 3 3 < 4 :=
  c2_indices_lt_ngrid 4 1 3 3 3 (Or.inl (by decide)) (by norm_num)
    (by decide) (by decide) (by decide)

section BoxsizeLemmas

/-- Doubling the box size halves the fundamental wavenumber. -/
theorem kf_double (b : ℝ) : kf (2 * b) = kf b / 2 := by
  unfold kf
  rw [div_div, mul_comm b 2]

/-- The sinc window argument depends on the box size only through the
ratio q/ngrid. -/
theorem warg_eq {n : ℕ} {b : ℝ} (hb : b ≠ 0) (hn : 0 < n) (i : ℕ) :
    Real.pi * wval n b i / (2 * kny n b)
      = Real.pi * ((qInt n i : ℤ) : ℝ) / n := by
  have hnr : ((n : ℝ)) ≠ 0 := Nat.cast_ne_zero.mpr (by omega)
  rw [wval_eq_kf_qInt]
  unfold kf kny
  have hpi : Real.pi ≠ 0 := Real.pi_ne_zero
  field_simp
  ring

/-- The sinc window is unchanged by doubling the box size. -/
theorem window_double {n : ℕ} {b : ℝ} (hb : b ≠ 0) (hn : 0 < n) (i j k : ℕ) :
    window n (2 * b) i j k = window n b i j k := by
  have h2b : (2 : ℝ) * b ≠ 0 := by
    intro h
    rcases mul_eq_zero.mp h with h2 | hb0
    · norm_num at h2
    · exact hb hb0
  unfold window
  rw [warg_eq h2b hn i, warg_eq h2b hn j, warg_eq h2b hn k,
    warg_eq hb hn i, warg_eq hb hn j, warg_eq hb hn k]

/-- Doubling the box size divides g by four. -/
theorem gval_double (n : ℕ) (b : ℝ) (i j k : ℕ) :
    gval n (2 * b) i j k = gval n b i j k / 4 := by
  unfold gval
  simp only [wval_eq_kf_qInt, kf_double]
  ring

/-- The physical bin index is unchanged by doubling the box size. -/
theorem scaleIndex_double {n : ℕ} {b : ℝ} (hb : b ≠ 0) (i j k : ℕ) :
    scaleIndex n (2 * b) i j k = scaleIndex n b i j k := by
  have h2b : (2 : ℝ) * b ≠ 0 := by
    intro h
    rcases mul_eq_zero.mp h with h2 | hb0
    · norm_num at h2
    · exact hb hb0
  unfold scaleIndex
  rw [gval_mul_coeff n h2b, gval_mul_coeff n hb]

/-- Each accumulated amount is unchanged by doubling the box size. -/
theorem powAmount_double {n : ℕ} {b : ℝ} (hb : b ≠ 0) (hn : 0 < n)
    (mode : CorrectionMode) (o1 o2 : ℕ → ℂ) (t : ℕ × ℕ × ℕ) :
    powAmount n (2 * b) mode o1 o2 t = powAmount n b mode o1 o2 t := by
  unfold powAmount
  have hg : gval n (2 * b) t.1 t.2.1 t.2.2 = 0 ↔ gval n b t.1 t.2.1 t.2.2 = 0 := by
    rw [gval_double]
    constructor
    · intro h
      have := div_eq_zero_iff.mp h
      rcases this with h0 | h4
      · exact h0
      · norm_num at h4
    · intro h
      rw [h]
      norm_num
  by_cases h : gval n b t.1 t.2.1 t.2.2 = 0
  · rw [if_pos h, if_pos (hg.mpr h)]
  · rw [if_neg h, if_neg (fun hh => h (hg.mp hh))]
    cases mode
    · rfl
    · unfold correctedRe
      rw [window_double hb hn]
    · unfold correctedRe
      rw [window_double hb hn]
    · unfold correctedRe
      rw [window_double hb hn]
    · unfold correctedRe
      rw [window_double hb hn]

/-- The accumulated power sums are unchanged by doubling the box
size. -/
theorem powSumAt_double {n : ℕ} {b : ℝ} (hb : b ≠ 0) (hn : 0 < n)
    (mode : CorrectionMode) (o1 o2 : ℕ → ℂ) (s : ℕ) :
    powSumAt n (2 * b) mode o1 o2 s = powSumAt n b mode o1 o2 s := by
  rw [powSumAt_eq_sum, powSumAt_eq_sum]
  congr 1
  apply List.map_congr_left
  intro t ht
  rw [scaleIndex_double hb, powAmount_double hb hn]

/-- The shell counts are unchanged by doubling the box size. -/
theorem iweightsAt_double {n : ℕ} {b : ℝ} (mode : CorrectionMode)
    (o1 o2 : ℕ → ℂ) (m : ℕ) :
    iweightsAt n (2 * b) mode o1 o2 m = iweightsAt n b mode o1 o2 m := by
  rw [iweightsAt_eq_sum, iweightsAt_eq_sum]

end BoxsizeLemmas

/-- C8: doubling boxsize with ngrid and the spectra fixed multiplies
every normalized pow_spec entry below nhalf by exactly 8 and leaves
the iweights vector unchanged. -/
theorem c8_boxsize_scaling (c : Config) (mode : CorrectionMode) (o1 o2 : ℕ → ℂ)
    (i : ℕ) (hn : 0 < c.ngrid) (hb : 0 < c.boxsize) (hi : i < nhalf c.ngrid) :
    (correlateOut ⟨c.ngrid, 2 * c.boxsize⟩ mode o1 o2).pow_spec.getD i 0
        = 8 * (correlateOut c mode o1 o2).pow_spec.getD i 0
      ∧ (correlateOut ⟨c.ngrid, 2 * c.boxsize⟩ mode o1 o2).iweights
        = (correlateOut c mode o1 o2).iweights := by
  have hbne : c.boxsize ≠ 0 := ne_of_gt hb
  have hin : i < c.ngrid := lt_of_lt_of_le hi (Nat.div_le_self _ _)
  constructor
  · have hps2 : (correlateOut ⟨c.ngrid, 2 * c.boxsize⟩ mode o1 o2).pow_spec.getD i 0
        = (loopState c.ngrid (2 * c.boxsize) mode o1 o2).1 i
            * ((2 * c.boxsize) ^ 3 / (c.ngrid : ℝ) ^ 6)
            / (((loopState c.ngrid (2 * c.boxsize) mode o1 o2).2 i : ℤ) : ℝ) := by
      simp only [correlateOut]
      rw [getD_map_range _ _ hin, if_pos hi]
    have hps1 : (correlateOut c mode o1 o2).pow_spec.getD i 0
        = (loopState c.ngrid c.boxsize mode o1 o2).1 i
            * (c.boxsize ^ 3 / (c.ngrid : ℝ) ^ 6)
            / (((loopState c.ngrid c.boxsize mode o1 o2).2 i : ℤ) : ℝ) := by
      simp only [correlateOut]
      rw [getD_map_range _ _ hin, if_pos hi]
    rw [hps2, hps1]
    have hsum : (loopState c.ngrid (2 * c.boxsize) mode o1 o2).1 i
        = (loopState c.ngrid c.boxsize mode o1 o2).1 i :=
      powSumAt_double hbne hn mode o1 o2 i
    have hwt : (loopState c.ngrid (2 * c.boxsize) mode o1 o2).2 i
        = (loopState c.ngrid c.boxsize mode o1 o2).2 i :=
      iweightsAt_double mode o1 o2 i
    rw [hsum, hwt]
    ring
  · simp only [correlateOut]
    apply List.map_congr_left
    intro m hm
    exact iweightsAt_double mode o1 o2 m

/-- C8 witness at ngrid = 4, boxsize = 1, bin 1, zero spectra. -/
theorem c8_boxsize_scaling_witness :
    (correlateOut ⟨4, 2 * 1⟩ CorrectionMode.none (fun _ => 0) (fun _ => 0)).pow_spec.getD 1 0
        = 8 * (correlateOut ⟨4, 1⟩ CorrectionMode.none (fun _ => 0) (fun _ => 0)).pow_spec.getD 1 0
      ∧ (correlateOut ⟨4, 2 * 1⟩ CorrectionMode.none (fun _ => 0) (fun _ => 0)).iweights
        = (correlateOut ⟨4, 1⟩ CorrectionMode.none (fun _ => 0) (fun _ => 0)).iweights :=
  c8_boxsize_scaling ⟨4, 1⟩ CorrectionMode.none (fun _ => 0) (fun _ => 0) 1
    (by decide) (by norm_num) (by decide)

/-- Division of a finite f64 by zero is never finite. -/
theorem div_fin_zero_not_finite (x : ℝ) :
    (F.div (F.fin x) (F.fin 0)).isFinite = false := by
  simp only [F.div]
  split_ifs <;> rfl

/-- The dimensionless-power expression keeps a non-finite normalized
entry non-finite. -/
theorem deltasqkF_not_finite (w : ℝ) (ps : F) (hps : ps.isFinite = false) :
    (deltasqkF w ps).isFinite = false := by
  unfold deltasqkF
  cases ps
  · simp [F.isFinite] at hps
  · simp only [F.mul]
    split_ifs <;> (simp only [F.div]; first | (split_ifs <;> rfl) | rfl)
  · simp only [F.mul]
    split_ifs <;> (simp only [F.div]; first | (split_ifs <;> rfl) | rfl)
  · simp only [F.mul, F.div]
    rfl

/-- C10: a zero shell count makes the normalization division of
`correlate` produce a non-finite f64 in pow_spec and hence in
deltasqk, while correlate itself still returns its Ok result - the
zero-count condition raises no error on any path. -/
theorem c10_empty_shell (powSum b w : ℝ) (n : ℕ) (weight : ℤ)
    (c : Config) (mode : CorrectionMode) (o1 o2 : ℕ → ℂ)
    (hw : weight = 0) :
    (normSpecF powSum b n weight).isFinite = false
      ∧ (deltasqkF w (normSpecF powSum b n weight)).isFinite = false
      ∧ correlate c mode o1 o2 = Except.ok (correlateOut c mode o1 o2) := by
  subst hw
  have h0 : ((0 : ℤ) : ℝ) = (0 : ℝ) := Int.cast_zero
  have h1 : (normSpecF powSum b n 0).isFinite = false := by
    unfold normSpecF
    rw [h0]
    exact div_fin_zero_not_finite _
  exact ⟨h1, deltasqkF_not_finite w _ h1, rfl⟩

/-- C10 witness: unit accumulated power, unit box, 4-cell grid, zero
shell count. -/
theorem c10_empty_shell_witness :
    (normSpecF 1 1 4 0).isFinite = false
      ∧ (deltasqkF 1 (normSpecF 1 1 4 0)).isFinite = false
      ∧ correlate ⟨4, 1⟩ CorrectionMode.none (fun _ => 0) (fun _ => 0)
        = Except.ok (correlateOut ⟨4, 1⟩ CorrectionMode.none (fun _ => 0) (fun _ => 0)) :=
  c10_empty_shell 1 1 1 4 0 ⟨4, 1⟩ CorrectionMode.none (fun _ => 0) (fun _ => 0) rfl

end Crosscorr
